import Mathlib

/-!
# Verification of `FrequencyCountSketch` (src/sketch/frequency_count_sketch.rs)

Shallow embedding of the 4-bit count-min sketch with periodic aging.

Machine integers are modelled as `Nat` with explicit `% 2^w` where the Rust
code can wrap (`u64` counter words, the `u128` intermediates of the hash
mixers, the `u8` aging accumulator).  `i32` values are modelled as `Int`
with an explicit 32-bit wrap where the Rust subtraction can overflow.
The counter table (`Box<Vec<u64>>`) is a `List Nat`; `self.table[i]` reads
become `List.getD _ i 0` and writes become `List.set` (indices are proved
in bounds for well-formed sketches, so the defaulting never fires there).

Items are identified with the 64-bit hash code that
`default_hash_code` (Rust's deterministic `DefaultHasher`) produces for
them: every operation below takes that hash code where the Rust function
takes `e: E`.  Two calls on the same item always see the same hash code, so
quantifying over the hash code covers every item.
-/

namespace FreqSketch

/-- The sketch state (struct `FrequencyCountSketch`). -/
structure FrequencyCountSketch where
  sample_size : Nat
  block_mask : Nat
  table : List Nat
  table_len : Nat
  size : Nat
  max_size : Nat
deriving Repr, DecidableEq

/-- `fn spread(&self, hash_code: u64) -> usize`: supplemental hash round.
The Rust body works in `u128` (multiplications wrap there) and truncates to
`usize` (64-bit) at the end. -/
def spread (hash_code : Nat) : Nat :=
  let x := hash_code
  let x := x ^^^ (x >>> 17)
  let x := x * 0xed5ad4bb % 2 ^ 128
  let x := x ^^^ (x >>> 11)
  let x := x * 0xac4c1b51 % 2 ^ 128
  let x := x ^^^ (x >>> 15)
  x % 2 ^ 64

/-- `fn rehash(&self, x: usize) -> usize`: second hash round, same
`u128`-intermediate wrapping semantics. -/
def rehash (x : Nat) : Nat :=
  let x := x * 0x31848bab % 2 ^ 128
  let x := x ^^^ (x >>> 14)
  x % 2 ^ 64

/-- In-word counter index for row `i`: `(h >> 1) & 15` with
`h = counter_hash >> (i << 3)` (shared by `frequency` and `increment`). -/
def counter_index (counter_hash i : Nat) : Nat :=
  ((counter_hash >>> (i <<< 3)) >>> 1) &&& 15

/-- Word-offset bit for row `i`: `h & 1` with `h = counter_hash >> (i << 3)`. -/
def counter_offset (counter_hash i : Nat) : Nat :=
  (counter_hash >>> (i <<< 3)) &&& 1

/-- `block = (block_hash & self.block_mask) << 3`. -/
def block_of (s : FrequencyCountSketch) (block_hash : Nat) : Nat :=
  (block_hash &&& s.block_mask) <<< 3

/-- Word position accessed by row `i`:
`block + offset + (i << 1)` (shared by `frequency` and `increment`). -/
def word_pos (s : FrequencyCountSketch) (block_hash counter_hash i : Nat) : Nat :=
  block_of s block_hash + counter_offset counter_hash i + (i <<< 1)

/-- One row's 4-bit counter read in `frequency`:
`(table[block + offset + (i << 1)] >> (index << 2)) & 0xf`. -/
def read_count (s : FrequencyCountSketch) (hash_code i : Nat) : Nat :=
  let block_hash := spread hash_code
  let counter_hash := rehash block_hash
  (s.table.getD (word_pos s block_hash counter_hash i) 0
      >>> (counter_index counter_hash i <<< 2)) &&& 0xf

/-- `pub fn frequency<E: Hash>(&self, e: E) -> u8`: minimum of the four row
counters.  A pure read: the embedding returns only the estimate and takes the
state immutably, mirroring `&self`. -/
def frequency (s : FrequencyCountSketch) (hash_code : Nat) : Nat :=
  min (min (read_count s hash_code 0) (read_count s hash_code 1))
      (min (read_count s hash_code 2) (read_count s hash_code 3))

/-- `fn increment_at(&mut self, i: usize, j: usize) -> bool`: saturating
increment of the `j`-th nibble of word `i`.  The `u64` add is modelled with
`% 2^64` (it never actually wraps: the guard keeps the nibble below 15).
Rust's `self.table[i]` panics out of bounds; the embedding defaults the
read to 0 and makes the write a no-op there, and `word_pos_bounds` (claim
C6) shows the indices the public operations pass are always in bounds. -/
def increment_at (s : FrequencyCountSketch) (i j : Nat) :
    FrequencyCountSketch × Bool :=
  let offset := j <<< 2
  let mask := 0xf <<< offset
  if s.table.getD i 0 &&& mask ≠ mask then
    ({ s with table := s.table.set i ((s.table.getD i 0 + 1 <<< offset) % 2 ^ 64) },
     true)
  else
    (s, false)

/-- `pub fn bit_count(mut i: u64) -> u8` (HD, Figure 5-2 steps, but the final
mask is `0x7`, not `0x7f`): returns the population count truncated to its low
3 bits.  None of the intermediate `u64` additions can wrap, so plain `Nat`
arithmetic is exact; the first subtraction never borrows, so `Nat`
subtraction is exact as well. -/
def bit_count (i : Nat) : Nat :=
  let i := i - ((i >>> 1) &&& 0x5555555555555555)
  let i := (i &&& 0x3333333333333333) + ((i >>> 2) &&& 0x3333333333333333)
  let i := (i + (i >>> 4)) &&& 0x0f0f0f0f0f0f0f0f
  let i := i + (i >>> 8)
  let i := i + (i >>> 16)
  let i := i + (i >>> 32)
  i &&& 0x7

/-- The `count` accumulated by `reset`'s loop: `count` is a `u8` in Rust, so
the addition wraps modulo 256 (and panics under debug assertions if it
overflows). -/
def reset_count (table : List Nat) : Nat :=
  table.foldl (fun c w => (c + bit_count (w &&& 0x1111111111111111)) % 256) 0

/-- `pub fn reset(&mut self)`: halve every counter
(`*i = *i >> 1 & 0x7777777777777777`), accumulate the per-word odd-counter
bit counts, and recompute `size = (size - (count >> 2)) >> 1`.  The single
Rust loop reads and rewrites each word; the count only depends on the old
words, so the embedding splits it into `reset_count` over the old table and
a `map` producing the new one.  The `usize` subtraction is written with
`Nat` subtraction. -/
def reset (s : FrequencyCountSketch) : FrequencyCountSketch :=
  let count := reset_count s.table
  { s with
    table := s.table.map (fun w => (w >>> 1) &&& 0x7777777777777777),
    size := (s.size - (count >>> 2)) >>> 1 }

/-- The four sequential `increment_at` calls of `increment` (the word
positions and nibble indices are all computed from the original state, as in
the Rust `index` array), together with `added = at0 | at1 | at2 | at3`. -/
def increment_table (s : FrequencyCountSketch) (hash_code : Nat) :
    FrequencyCountSketch × Bool :=
  let block_hash := spread hash_code
  let counter_hash := rehash block_hash
  let p := increment_at s (word_pos s block_hash counter_hash 0) (counter_index counter_hash 0)
  let q := increment_at p.1 (word_pos s block_hash counter_hash 1) (counter_index counter_hash 1)
  let r := increment_at q.1 (word_pos s block_hash counter_hash 2) (counter_index counter_hash 2)
  let t := increment_at r.1 (word_pos s block_hash counter_hash 3) (counter_index counter_hash 3)
  (t.1, p.2 || q.2 || r.2 || t.2)

/-- `pub fn increment<E: Hash>(&mut self, e: E)`: bump the four counters,
and if any changed, bump `size`; when `size` reaches `sample_size`, age. -/
def increment (s : FrequencyCountSketch) (hash_code : Nat) :
    FrequencyCountSketch :=
  let r := increment_table s hash_code
  if r.2 then
    let t : FrequencyCountSketch := { r.1 with size := r.1.size + 1 }
    if t.size = t.sample_size then reset t else t
  else
    r.1

/-- 32-bit two's-complement wrap, for the `i32` subtraction `num - 1` in
`ceiling_power_of_two` (it overflows only at `num = i32::MIN`). -/
def wrap32 (x : Int) : Int :=
  (x + 2 ^ 31) % 2 ^ 32 - 2 ^ 31

/-- `pub fn number_of_leading_zeros(i: i32) -> u8`: binary narrowing. -/
def number_of_leading_zeros (i : Int) : Nat :=
  if i = 0 then 32
  else if i < 0 then 0
  else
    let n := 31
    let b := i.toNat
    let n := if b ≥ 1 <<< 16 then n - 16 else n
    let b := if b ≥ 1 <<< 16 then b >>> 16 else b
    let n := if b ≥ 1 <<< 8 then n - 8 else n
    let b := if b ≥ 1 <<< 8 then b >>> 8 else b
    let n := if b ≥ 1 <<< 4 then n - 4 else n
    let b := if b ≥ 1 <<< 4 then b >>> 4 else b
    let n := if b ≥ 1 <<< 2 then n - 2 else n
    let b := if b ≥ 1 <<< 2 then b >>> 2 else b
    n - (b >>> 1)

/-- `pub fn ceiling_power_of_two(num: i32) -> u32`.
`(-1i32 as u32) >> a` is `(2^32 - 1) >>> a`. -/
def ceiling_power_of_two (num : Int) : Nat :=
  let a := number_of_leading_zeros (wrap32 (num - 1))
  if a = 32 ∨ a = 0 then 1
  else
    let n := (2 ^ 32 - 1) >>> a
    if n ≥ 1 <<< 30 then 1 <<< 30 else n + 1

/-- `pub fn new(maximum_size: usize) -> Self`.
`i32::MAX as usize >> 1 = 2^30 - 1`. -/
def new (maximum_size : Nat) : FrequencyCountSketch :=
  let maximum := min maximum_size (2 ^ 30 - 1)
  let sample_size := if maximum > 0 then 10 * maximum else 10
  let table_len := max (ceiling_power_of_two (maximum : Int)) 8
  { sample_size := sample_size
    block_mask := (table_len >>> 3) - 1
    table := List.replicate table_len 0
    table_len := table_len
    size := 0
    max_size := maximum }

/-- `pub fn get_max_size(&self) -> usize`. -/
def get_max_size (s : FrequencyCountSketch) : Nat := s.max_size

/-- `pub fn get_table_len(&self) -> usize`. -/
def get_table_len (s : FrequencyCountSketch) : Nat := s.table_len

/-- States reachable through the public constructor and the mutating public
operations (`frequency` is a pure read and does not change the state). -/
inductive Reachable : FrequencyCountSketch → Prop
  | new (maximum_size : Nat) : Reachable (new maximum_size)
  | increment {s : FrequencyCountSketch} (hash_code : Nat) :
      Reachable s → Reachable (increment s hash_code)
  | reset {s : FrequencyCountSketch} :
      Reachable s → Reachable (reset s)

/-- Structural well-formedness: the table really has `table_len` words, the
block mask matches (`table_len = 8 * (block_mask + 1)`), and every word fits
in a `u64`. -/
def WF (s : FrequencyCountSketch) : Prop :=
  s.table.length = s.table_len ∧
  s.table_len = 8 * (s.block_mask + 1) ∧
  ∀ i, i < s.table.length → s.table.getD i 0 < 2 ^ 64

instance WF_decidable (s : FrequencyCountSketch) : Decidable (WF s) := by
  unfold WF
  infer_instance

/-! ## Nibble arithmetic toolkit -/

/-- The `j`-th 4-bit counter of a packed word, as plain arithmetic. -/
def nib (w j : Nat) : Nat := w / 16 ^ j % 16

theorem nib_lt (w j : Nat) : nib w j < 16 :=
  Nat.mod_lt _ (by omega)

theorem and_fifteen (w : Nat) : w &&& 15 = w % 16 := by
  have h := Nat.and_pow_two_sub_one_eq_mod w 4
  norm_num at h
  exact h

theorem and_seven (w : Nat) : w &&& 7 = w % 8 := by
  have h := Nat.and_pow_two_sub_one_eq_mod w 3
  norm_num at h
  exact h

theorem two_pow_four_mul (j : Nat) : 2 ^ (4 * j) = 16 ^ j := by
  rw [Nat.pow_mul]

/-- Reading a shifted-and-masked nibble is exactly `nib`. -/
theorem nib_eq_shift (w j : Nat) : nib w j = (w >>> (j <<< 2)) &&& 15 := by
  rw [Nat.shiftRight_eq_div_pow, and_fifteen, nib]
  have : j <<< 2 = 4 * j := by rw [Nat.shiftLeft_eq]; ring
  rw [this, two_pow_four_mul]

theorem and_shiftRight_distrib (a b n : Nat) :
    (a &&& b) >>> n = (a >>> n) &&& (b >>> n) := by
  apply Nat.eq_of_testBit_eq
  intro k
  simp [Nat.testBit_and, Nat.testBit_shiftRight]

theorem and_shiftLeft_distrib (a b n : Nat) :
    a &&& (b <<< n) = ((a >>> n) &&& b) <<< n := by
  apply Nat.eq_of_testBit_eq
  intro k
  simp only [Nat.testBit_and, Nat.testBit_shiftLeft, Nat.testBit_shiftRight]
  by_cases h : n ≤ k
  · simp [h, Nat.add_sub_cancel' h]
  · simp [h, Nat.testBit_lt_two_pow]

theorem shiftLeft_inj (a b n : Nat) (h : a <<< n = b <<< n) : a = b := by
  rw [Nat.shiftLeft_eq, Nat.shiftLeft_eq] at h
  exact Nat.eq_of_mul_eq_mul_right (Nat.two_pow_pos n) h

/-- The saturation test of `increment_at`: the masked word equals the mask
exactly when the targeted counter is at its maximum 15. -/
theorem mask_check (w j : Nat) :
    w &&& 0xf <<< (j <<< 2) = 0xf <<< (j <<< 2) ↔ nib w j = 15 := by
  rw [and_shiftLeft_distrib, nib_eq_shift]
  constructor
  · intro h
    exact shiftLeft_inj _ _ _ h
  · intro h
    rw [h]

/-- Base-16 digit decomposition of a word at position `j`. -/
theorem nib_decomp (w j : Nat) :
    w = 16 ^ (j + 1) * (w / 16 ^ (j + 1)) + 16 ^ j * nib w j + w % 16 ^ j := by
  have h1 := Nat.div_add_mod w (16 ^ j)
  have h2 := Nat.div_add_mod (w / 16 ^ j) 16
  rw [Nat.div_div_eq_div_mul, ← Nat.pow_succ] at h2
  calc w = 16 ^ j * (w / 16 ^ j) + w % 16 ^ j := h1.symm
    _ = 16 ^ j * (16 * (w / 16 ^ (j + 1)) + w / 16 ^ j % 16) + w % 16 ^ j := by rw [h2]
    _ = 16 ^ (j + 1) * (w / 16 ^ (j + 1)) + 16 ^ j * nib w j + w % 16 ^ j := by
        rw [nib, Nat.pow_succ]; ring

/-- Adding `16^j` to a word whose `j`-th counter is below 15 increments that
counter and leaves every other counter unchanged. -/
theorem nib_add (w j : Nat) (hv : nib w j < 15) (j' : Nat) :
    nib (w + 16 ^ j) j' = if j' = j then nib w j + 1 else nib w j' := by
  rcases Nat.lt_trichotomy j' j with hlt | heq | hgt
  · -- j' < j : the added power is a multiple of 16^(j'+1)
    rw [if_neg (by omega)]
    have hsplit : (16 : Nat) ^ j = 16 * 16 ^ (j - j' - 1) * 16 ^ j' := by
      rw [mul_assoc, ← Nat.pow_add, ← Nat.pow_succ']
      congr 1
      omega
    rw [nib, nib, hsplit, Nat.add_mul_div_right _ _ (Nat.pos_pow_of_pos j' (by omega))]
    omega
  · -- j' = j
    subst heq
    rw [if_pos rfl, nib, nib, Nat.add_div_right _ (Nat.pos_pow_of_pos j' (by omega))]
    have := nib_lt w j'
    rw [nib] at hv
    omega
  · -- j < j' : the carry stays inside the 16^(j+1) digit
    rw [if_neg (by omega)]
    have hqq : (w + 16 ^ j) / 16 ^ (j + 1) = w / 16 ^ (j + 1) := by
      have hde := nib_decomp w j
      have hmod : w % 16 ^ j < 16 ^ j := Nat.mod_lt _ (Nat.pos_pow_of_pos j (by omega))
      have hlow : 16 ^ j * nib w j + w % 16 ^ j + 16 ^ j < 16 ^ (j + 1) := by
        have hmul : 16 ^ j * nib w j + 16 ^ j * 1 ≤ 16 ^ j * 15 := by
          rw [← Nat.mul_add]
          exact Nat.mul_le_mul_left _ (by omega)
        rw [Nat.pow_succ]
        omega
      have hw2 : w + 16 ^ j =
          16 ^ (j + 1) * (w / 16 ^ (j + 1)) + (16 ^ j * nib w j + w % 16 ^ j + 16 ^ j) := by
        omega
      rw [hw2, Nat.mul_add_div (Nat.pos_pow_of_pos _ (by omega)), Nat.div_eq_of_lt hlow,
        Nat.add_zero]
    have hj' : (16 : Nat) ^ j' = 16 ^ (j + 1) * 16 ^ (j' - j - 1) := by
      rw [← Nat.pow_add]
      congr 1
      omega
    rw [nib, nib, hj', ← Nat.div_div_eq_div_mul, ← Nat.div_div_eq_div_mul, hqq]

/-- No carry out of the word: the increments of `increment_at` keep words
below `2^64`. -/
theorem add_nib_lt (w j : Nat) (hv : nib w j < 15) (hj : j < 16) (hw : w < 2 ^ 64) :
    w + 16 ^ j < 2 ^ 64 := by
  have hde := nib_decomp w j
  have hmod : w % 16 ^ j < 16 ^ j := Nat.mod_lt _ (Nat.pos_pow_of_pos j (by omega))
  have hlow : 16 ^ j * nib w j + w % 16 ^ j + 16 ^ j < 16 ^ (j + 1) := by
    have : 16 ^ j * nib w j + 16 ^ j * 1 ≤ 16 ^ j * 15 := by
      rw [← Nat.mul_add]
      exact Nat.mul_le_mul_left _ (by omega)
    rw [Nat.pow_succ]
    omega
  have hsplit : (2 : Nat) ^ 64 = 16 ^ (j + 1) * 2 ^ (64 - 4 * (j + 1)) := by
    rw [← two_pow_four_mul, ← Nat.pow_add]
    congr 1
    omega
  have hq : w / 16 ^ (j + 1) + 1 ≤ 2 ^ (64 - 4 * (j + 1)) := by
    by_contra hcon
    have h2 : 2 ^ (64 - 4 * (j + 1)) ≤ w / 16 ^ (j + 1) := by omega
    have h3 : 16 ^ (j + 1) * 2 ^ (64 - 4 * (j + 1)) ≤ 16 ^ (j + 1) * (w / 16 ^ (j + 1)) :=
      Nat.mul_le_mul_left _ h2
    have h4 : 16 ^ (j + 1) * (w / 16 ^ (j + 1)) ≤ w := Nat.div_mul_le_self w _ |>.trans_eq' (by
      rw [Nat.mul_comm])
    omega
  calc w + 16 ^ j
      = 16 ^ (j + 1) * (w / 16 ^ (j + 1)) + (16 ^ j * nib w j + w % 16 ^ j + 16 ^ j) := by
        omega
    _ < 16 ^ (j + 1) * (w / 16 ^ (j + 1)) + 16 ^ (j + 1) := by omega
    _ = 16 ^ (j + 1) * (w / 16 ^ (j + 1) + 1) := by ring
    _ ≤ 16 ^ (j + 1) * 2 ^ (64 - 4 * (j + 1)) := Nat.mul_le_mul_left _ hq
    _ = 2 ^ 64 := hsplit.symm

/-- Halving a word (`(w >> 1) & 0x7777…`) halves every counter with floor
rounding. -/
theorem nib_half (w j : Nat) (hj : j < 16) :
    nib ((w >>> 1) &&& 0x7777777777777777) j = nib w j / 2 := by
  have hmask : (0x7777777777777777 >>> (4 * j)) &&& 15 = 7 := by
    interval_cases j <;> decide
  have hsl : j <<< 2 = 4 * j := by rw [Nat.shiftLeft_eq]; ring
  rw [nib_eq_shift, hsl, and_shiftRight_distrib, ← Nat.shiftRight_add,
    Nat.and_assoc, hmask, Nat.shiftRight_eq_div_pow, and_seven]
  rw [nib, ← two_pow_four_mul]
  have h1 : (2 : Nat) ^ (1 + 4 * j) = 2 ^ (4 * j) * 2 := by
    rw [Nat.add_comm, Nat.pow_add]
  rw [h1, ← Nat.div_div_eq_div_mul]
  omega

/-! ## List access glue -/

theorem getD_set_self (l : List Nat) (i v : Nat) (h : i < l.length) :
    (l.set i v).getD i 0 = v := by
  simp [List.getD_eq_getElem?_getD, List.getElem?_set_self h]

theorem getD_set_ne (l : List Nat) (i k v : Nat) (h : i ≠ k) :
    (l.set i v).getD k 0 = l.getD k 0 := by
  simp [List.getD_eq_getElem?_getD, List.getElem?_set_ne h]

theorem getD_replicate_zero (n i : Nat) : (List.replicate n (0 : Nat)).getD i 0 = 0 := by
  simp only [List.getD_eq_getElem?_getD, List.getElem?_replicate]
  split <;> rfl

theorem getD_map_lt (f : Nat → Nat) (l : List Nat) (i : Nat) (h : i < l.length) :
    (l.map f).getD i 0 = f (l.getD i 0) := by
  simp [List.getD_eq_getElem?_getD, List.getElem?_eq_getElem h]

theorem getD_len_le (l : List Nat) (i : Nat) (h : l.length ≤ i) : l.getD i 0 = 0 := by
  simp [List.getD_eq_getElem?_getD, List.getElem?_eq_none h]

/-! ## Characterization of `increment_at` -/

theorem pow16_eq_shift (j : Nat) : 1 <<< (j <<< 2) = 16 ^ j := by
  rw [Nat.shiftLeft_eq, Nat.one_mul, Nat.shiftLeft_eq]
  have : j * 2 ^ 2 = 4 * j := by ring
  rw [this, two_pow_four_mul]

/-- `increment_at` either leaves the state alone (counter saturated at 15)
or adds `16^j` to word `i` and reports a change. -/
theorem increment_at_eq (s : FrequencyCountSketch) (i j : Nat) (hj : j < 16)
    (hw : s.table.getD i 0 < 2 ^ 64) :
    increment_at s i j =
      if nib (s.table.getD i 0) j = 15 then (s, false)
      else ({ s with table := s.table.set i (s.table.getD i 0 + 16 ^ j) }, true) := by
  by_cases hsat : nib (s.table.getD i 0) j = 15
  · rw [if_pos hsat]
    unfold increment_at
    rw [if_neg (not_not_intro ((mask_check _ _).mpr hsat))]
  · rw [if_neg hsat]
    unfold increment_at
    rw [if_pos (fun h => hsat ((mask_check _ _).mp h))]
    have hv : nib (s.table.getD i 0) j < 15 :=
      Nat.lt_of_le_of_ne (Nat.le_of_lt_succ (nib_lt _ _)) hsat
    rw [pow16_eq_shift, Nat.mod_eq_of_lt (add_nib_lt _ _ hv hj hw)]

/-- `increment_at` only touches the table. -/
theorem increment_at_preserve (s : FrequencyCountSketch) (i j : Nat) :
    (increment_at s i j).1.sample_size = s.sample_size ∧
    (increment_at s i j).1.block_mask = s.block_mask ∧
    (increment_at s i j).1.table_len = s.table_len ∧
    (increment_at s i j).1.size = s.size ∧
    (increment_at s i j).1.max_size = s.max_size ∧
    (increment_at s i j).1.table.length = s.table.length := by
  simp only [increment_at]
  split <;> simp

/-- Effect of `increment_at` on every counter of every word: words stay
below `2^64`, no counter decreases, and words other than `i` are
untouched. -/
theorem increment_at_nib (s : FrequencyCountSketch) (i j : Nat) (hj : j < 16)
    (hent : ∀ p, p < s.table.length → s.table.getD p 0 < 2 ^ 64) :
    (∀ p, p < (increment_at s i j).1.table.length →
        (increment_at s i j).1.table.getD p 0 < 2 ^ 64) ∧
    (∀ p j', j' < 16 →
        nib (s.table.getD p 0) j' ≤ nib ((increment_at s i j).1.table.getD p 0) j') ∧
    (∀ p, p ≠ i → (increment_at s i j).1.table.getD p 0 = s.table.getD p 0) := by
  have hw : s.table.getD i 0 < 2 ^ 64 := by
    rcases Nat.lt_or_ge i s.table.length with h | h
    · exact hent i h
    · rw [getD_len_le _ _ h]; omega
  rw [increment_at_eq s i j hj hw]
  by_cases hsat : nib (s.table.getD i 0) j = 15
  · rw [if_pos hsat]
    exact ⟨hent, fun p j' _ => Nat.le_refl _, fun p _ => rfl⟩
  · rw [if_neg hsat]
    have hv : nib (s.table.getD i 0) j < 15 :=
      Nat.lt_of_le_of_ne (Nat.le_of_lt_succ (nib_lt _ _)) hsat
    rcases Nat.lt_or_ge i s.table.length with hin | hout
    · refine ⟨?_, ?_, ?_⟩
      · intro p hp
        simp only [List.length_set] at hp
        rcases Decidable.eq_or_ne p i with rfl | hne
        · rw [getD_set_self _ _ _ hin]
          exact add_nib_lt _ _ hv hj hw
        · rw [getD_set_ne _ _ _ _ (Ne.symm hne)]
          exact hent p hp
      · intro p j' hj'
        rcases Decidable.eq_or_ne p i with rfl | hne
        · rw [getD_set_self _ _ _ hin, nib_add _ _ hv j']
          by_cases hjj : j' = j
          · subst hjj
            rw [if_pos rfl]
            omega
          · rw [if_neg hjj]
        · rw [getD_set_ne _ _ _ _ (Ne.symm hne)]
      · intro p hne
        exact getD_set_ne _ _ _ _ (Ne.symm hne)
    · rw [List.set_eq_of_length_le hout]
      exact ⟨hent, fun p j' _ => Nat.le_refl _, fun p _ => rfl⟩

/-! ## Field preservation and `reset` characterization -/

theorem shiftRight_one (x : Nat) : x >>> 1 = x / 2 := by
  rw [Nat.shiftRight_eq_div_pow, pow_one]

theorem counter_index_lt (ch i : Nat) : counter_index ch i < 16 := by
  have h : counter_index ch i ≤ 15 := Nat.and_le_right
  omega

theorem counter_offset_le (ch i : Nat) : counter_offset ch i ≤ 1 := Nat.and_le_right

theorem reset_preserve (s : FrequencyCountSketch) :
    (reset s).sample_size = s.sample_size ∧
    (reset s).block_mask = s.block_mask ∧
    (reset s).table_len = s.table_len ∧
    (reset s).max_size = s.max_size ∧
    (reset s).table.length = s.table.length ∧
    (reset s).size = (s.size - (reset_count s.table >>> 2)) >>> 1 := by
  simp [reset]

theorem increment_table_preserve (s : FrequencyCountSketch) (hc : Nat) :
    (increment_table s hc).1.sample_size = s.sample_size ∧
    (increment_table s hc).1.block_mask = s.block_mask ∧
    (increment_table s hc).1.table_len = s.table_len ∧
    (increment_table s hc).1.size = s.size ∧
    (increment_table s hc).1.max_size = s.max_size ∧
    (increment_table s hc).1.table.length = s.table.length := by
  simp only [increment_table, increment_at]
  split <;> split <;> split <;> split <;> simp

theorem increment_preserve (s : FrequencyCountSketch) (hc : Nat) :
    (increment s hc).sample_size = s.sample_size ∧
    (increment s hc).block_mask = s.block_mask ∧
    (increment s hc).table_len = s.table_len ∧
    (increment s hc).max_size = s.max_size ∧
    (increment s hc).table.length = s.table.length := by
  obtain ⟨h1, h2, h3, _, h5, h6⟩ := increment_table_preserve s hc
  simp only [increment]
  split
  · split
    · obtain ⟨r1, r2, r3, r4, r5, _⟩ := reset_preserve
        { (increment_table s hc).1 with size := (increment_table s hc).1.size + 1 }
      exact ⟨r1.trans h1, r2.trans h2, r3.trans h3, r4.trans h5, r5.trans h6⟩
    · exact ⟨h1, h2, h3, h5, h6⟩
  · exact ⟨h1, h2, h3, h5, h6⟩

/-- Aging at least halves `size`. -/
theorem reset_size_le (s : FrequencyCountSketch) : (reset s).size ≤ s.size / 2 := by
  obtain ⟨_, _, _, _, _, h⟩ := reset_preserve s
  rw [h, shiftRight_one]
  exact Nat.div_le_div_right (Nat.sub_le _ _)

/-! ## C10: `size` stays strictly below `sample_size` -/

theorem new_size (m : Nat) : (new m).size = 0 := rfl

theorem new_sample_size_pos (m : Nat) : 0 < (new m).sample_size := by
  show (0 : Nat) < (if min m (2 ^ 30 - 1) > 0 then 10 * min m (2 ^ 30 - 1) else 10)
  split <;> omega

/-- If aging fires exactly at the threshold, the halved `size` drops back
strictly below `sample_size`. -/
theorem reset_lt_sample (t : FrequencyCountSketch) (hpos : 0 < t.sample_size)
    (hsz : t.size = t.sample_size) : (reset t).size < (reset t).sample_size := by
  obtain ⟨r1, _, _, _, _, _⟩ := reset_preserve t
  have hle := reset_size_le t
  rw [r1]
  omega

/-- Invariant: every reachable state satisfies `size < sample_size`. -/
theorem reachable_size_lt_sample {s : FrequencyCountSketch} (h : Reachable s) :
    s.size < s.sample_size := by
  induction h with
  | new m =>
    rw [new_size m]
    exact new_sample_size_pos m
  | @increment s' hc hr ih =>
    obtain ⟨h1, _, _, h4, _, _⟩ := increment_table_preserve s' hc
    simp only [increment]
    split
    · split
      · rename_i hadd hthr
        have hpos : 0 < (increment_table s' hc).1.sample_size := by
          rw [h1]
          omega
        exact reset_lt_sample _ hpos hthr
      · rename_i hadd hthr
        have hle2 : (increment_table s' hc).1.size + 1 ≤ (increment_table s' hc).1.sample_size := by
          rw [h4, h1]
          omega
        exact Nat.lt_of_le_of_ne hle2 hthr
    · rw [h4, h1]
      exact ih
  | @reset s' hr ih =>
    obtain ⟨r1, _, _, _, _, _⟩ := reset_preserve s'
    have := reset_size_le s'
    rw [r1]
    omega

/-! ## `number_of_leading_zeros` and `ceiling_power_of_two` -/

theorem nlz_le_32 (i : Int) : number_of_leading_zeros i ≤ 32 := by
  simp only [number_of_leading_zeros]
  split_ifs <;> omega

theorem nlz_zero : number_of_leading_zeros 0 = 32 := rfl

theorem nlz_neg (i : Int) (h : i < 0) : number_of_leading_zeros i = 0 := by
  simp only [number_of_leading_zeros, if_neg (by omega : ¬i = 0), if_pos h]

/-- Binades are unique: a value lies between consecutive powers of two for
exactly one exponent. -/
theorem binade_det {b k c : Nat} (hk : 2 ^ k ≤ b) (hk1 : b < 2 ^ (k + 1))
    (hc : 2 ^ c ≤ b) (hc1 : b < 2 ^ (c + 1)) : k = c := by
  by_contra hne
  rcases Nat.lt_or_ge k c with h | h
  · have hle : (2 : Nat) ^ (k + 1) ≤ 2 ^ c := Nat.pow_le_pow_right (by omega) (by omega)
    omega
  · have hck : c < k := by omega
    have hle : (2 : Nat) ^ (c + 1) ≤ 2 ^ k := Nat.pow_le_pow_right (by omega) (by omega)
    omega

/-- Correctness of the binary narrowing on positive 32-bit inputs. -/
theorem nlz_pos_eq (b k : Nat) (hk : 2 ^ k ≤ b) (hk1 : b < 2 ^ (k + 1)) (hk31 : k ≤ 31) :
    number_of_leading_zeros (b : Int) = 31 - k := by
  have hb1 : 1 ≤ b := Nat.le_trans Nat.one_le_two_pow hk
  have hb2 : b < 2 ^ 32 := Nat.lt_of_lt_of_le hk1 (Nat.pow_le_pow_right (by omega) (by omega))
  have h0 : ¬(b : Int) = 0 := by omega
  have h1 : ¬(b : Int) < 0 := by omega
  simp only [number_of_leading_zeros, if_neg h0, if_neg h1, Int.toNat_ofNat,
    Nat.shiftLeft_eq, Nat.shiftRight_eq_div_pow, Nat.one_mul]
  by_cases c1 : b ≥ 2 ^ 16
  · simp only [if_pos c1]
    by_cases c2 : b / 2 ^ 16 ≥ 2 ^ 8
    · simp only [if_pos c2]
      by_cases c3 : b / 2 ^ 16 / 2 ^ 8 ≥ 2 ^ 4
      · simp only [if_pos c3]
        by_cases c4 : b / 2 ^ 16 / 2 ^ 8 / 2 ^ 4 ≥ 2 ^ 2
        · simp only [if_pos c4]
          rcases Nat.lt_or_ge b (2 ^ 31) with hs | hs
          · have hk2 : k = 30 := binade_det hk hk1 (by omega) hs
            subst hk2; omega
          · have hk2 : k = 31 := binade_det hk hk1 hs (by omega)
            subst hk2; omega
        · simp only [if_neg c4]
          rcases Nat.lt_or_ge b (2 ^ 29) with hs | hs
          · have hk2 : k = 28 := binade_det hk hk1 (by omega) hs
            subst hk2; omega
          · have hk2 : k = 29 := binade_det hk hk1 hs (by omega)
            subst hk2; omega
      · simp only [if_neg c3]
        by_cases c4 : b / 2 ^ 16 / 2 ^ 8 ≥ 2 ^ 2
        · simp only [if_pos c4]
          rcases Nat.lt_or_ge b (2 ^ 27) with hs | hs
          · have hk2 : k = 26 := binade_det hk hk1 (by omega) hs
            subst hk2; omega
          · have hk2 : k = 27 := binade_det hk hk1 hs (by omega)
            subst hk2; omega
        · simp only [if_neg c4]
          rcases Nat.lt_or_ge b (2 ^ 25) with hs | hs
          · have hk2 : k = 24 := binade_det hk hk1 (by omega) hs
            subst hk2; omega
          · have hk2 : k = 25 := binade_det hk hk1 hs (by omega)
            subst hk2; omega
    · simp only [if_neg c2]
      by_cases c3 : b / 2 ^ 16 ≥ 2 ^ 4
      · simp only [if_pos c3]
        by_cases c4 : b / 2 ^ 16 / 2 ^ 4 ≥ 2 ^ 2
        · simp only [if_pos c4]
          rcases Nat.lt_or_ge b (2 ^ 23) with hs | hs
          · have hk2 : k = 22 := binade_det hk hk1 (by omega) hs
            subst hk2; omega
          · have hk2 : k = 23 := binade_det hk hk1 hs (by omega)
            subst hk2; omega
        · simp only [if_neg c4]
          rcases Nat.lt_or_ge b (2 ^ 21) with hs | hs
          · have hk2 : k = 20 := binade_det hk hk1 (by omega) hs
            subst hk2; omega
          · have hk2 : k = 21 := binade_det hk hk1 hs (by omega)
            subst hk2; omega
      · simp only [if_neg c3]
        by_cases c4 : b / 2 ^ 16 ≥ 2 ^ 2
        · simp only [if_pos c4]
          rcases Nat.lt_or_ge b (2 ^ 19) with hs | hs
          · have hk2 : k = 18 := binade_det hk hk1 (by omega) hs
            subst hk2; omega
          · have hk2 : k = 19 := binade_det hk hk1 hs (by omega)
            subst hk2; omega
        · simp only [if_neg c4]
          rcases Nat.lt_or_ge b (2 ^ 17) with hs | hs
          · have hk2 : k = 16 := binade_det hk hk1 (by omega) hs
            subst hk2; omega
          · have hk2 : k = 17 := binade_det hk hk1 hs (by omega)
            subst hk2; omega
  · simp only [if_neg c1]
    by_cases c2 : b ≥ 2 ^ 8
    · simp only [if_pos c2]
      by_cases c3 : b / 2 ^ 8 ≥ 2 ^ 4
      · simp only [if_pos c3]
        by_cases c4 : b / 2 ^ 8 / 2 ^ 4 ≥ 2 ^ 2
        · simp only [if_pos c4]
          rcases Nat.lt_or_ge b (2 ^ 15) with hs | hs
          · have hk2 : k = 14 := binade_det hk hk1 (by omega) hs
            subst hk2; omega
          · have hk2 : k = 15 := binade_det hk hk1 hs (by omega)
            subst hk2; omega
        · simp only [if_neg c4]
          rcases Nat.lt_or_ge b (2 ^ 13) with hs | hs
          · have hk2 : k = 12 := binade_det hk hk1 (by omega) hs
            subst hk2; omega
          · have hk2 : k = 13 := binade_det hk hk1 hs (by omega)
            subst hk2; omega
      · simp only [if_neg c3]
        by_cases c4 : b / 2 ^ 8 ≥ 2 ^ 2
        · simp only [if_pos c4]
          rcases Nat.lt_or_ge b (2 ^ 11) with hs | hs
          · have hk2 : k = 10 := binade_det hk hk1 (by omega) hs
            subst hk2; omega
          · have hk2 : k = 11 := binade_det hk hk1 hs (by omega)
            subst hk2; omega
        · simp only [if_neg c4]
          rcases Nat.lt_or_ge b (2 ^ 9) with hs | hs
          · have hk2 : k = 8 := binade_det hk hk1 (by omega) hs
            subst hk2; omega
          · have hk2 : k = 9 := binade_det hk hk1 hs (by omega)
            subst hk2; omega
    · simp only [if_neg c2]
      by_cases c3 : b ≥ 2 ^ 4
      · simp only [if_pos c3]
        by_cases c4 : b / 2 ^ 4 ≥ 2 ^ 2
        · simp only [if_pos c4]
          rcases Nat.lt_or_ge b (2 ^ 7) with hs | hs
          · have hk2 : k = 6 := binade_det hk hk1 (by omega) hs
            subst hk2; omega
          · have hk2 : k = 7 := binade_det hk hk1 hs (by omega)
            subst hk2; omega
        · simp only [if_neg c4]
          rcases Nat.lt_or_ge b (2 ^ 5) with hs | hs
          · have hk2 : k = 4 := binade_det hk hk1 (by omega) hs
            subst hk2; omega
          · have hk2 : k = 5 := binade_det hk hk1 hs (by omega)
            subst hk2; omega
      · simp only [if_neg c3]
        by_cases c4 : b ≥ 2 ^ 2
        · simp only [if_pos c4]
          rcases Nat.lt_or_ge b (2 ^ 3) with hs | hs
          · have hk2 : k = 2 := binade_det hk hk1 (by omega) hs
            subst hk2; omega
          · have hk2 : k = 3 := binade_det hk hk1 hs (by omega)
            subst hk2; omega
        · simp only [if_neg c4]
          rcases Nat.lt_or_ge b (2 ^ 1) with hs | hs
          · have hk2 : k = 0 := binade_det hk hk1 (by omega) hs
            subst hk2; omega
          · have hk2 : k = 1 := binade_det hk hk1 hs (by omega)
            subst hk2; omega

theorem wrap32_eq (x : Int) (h1 : -2 ^ 31 ≤ x) (h2 : x < 2 ^ 31) : wrap32 x = x := by
  unfold wrap32
  omega

/-- `(2^32 - 1) >> a` is a block of `32 - a` low ones. -/
theorem shifted_ones (a : Nat) (h : a ≤ 32) : (2 ^ 32 - 1 : Nat) >>> a = 2 ^ (32 - a) - 1 := by
  apply Nat.eq_of_testBit_eq
  intro k
  simp only [Nat.testBit_shiftRight, Nat.testBit_two_pow_sub_one]
  by_cases hk : a + k < 32
  · rw [decide_eq_true hk, decide_eq_true (by omega : k < 32 - a)]
  · rw [decide_eq_false (by omega : ¬a + k < 32), decide_eq_false (by omega : ¬k < 32 - a)]

/-- `ceiling_power_of_two` always returns a power of two (at most `2^30`). -/
theorem cp2_pow (num : Int) : ∃ k ≤ 30, ceiling_power_of_two num = 2 ^ k := by
  simp only [ceiling_power_of_two]
  split_ifs with h1 h2
  · exact ⟨0, by omega, rfl⟩
  · exact ⟨30, by omega, by norm_num [Nat.shiftLeft_eq]⟩
  · have ha32 : number_of_leading_zeros (wrap32 (num - 1)) ≤ 32 := nlz_le_32 _
    have ha : 1 ≤ number_of_leading_zeros (wrap32 (num - 1)) ∧
        number_of_leading_zeros (wrap32 (num - 1)) ≤ 31 := by
      rw [not_or] at h1
      omega
    rw [shifted_ones _ ha32] at h2
    have ha2 : 2 ≤ number_of_leading_zeros (wrap32 (num - 1)) := by
      by_contra hcon
      have he1 : number_of_leading_zeros (wrap32 (num - 1)) = 1 := by omega
      rw [he1] at h2
      norm_num [Nat.shiftLeft_eq] at h2
    refine ⟨32 - number_of_leading_zeros (wrap32 (num - 1)), by omega, ?_⟩
    rw [shifted_ones _ ha32]
    have hp : 1 ≤ (2 : Nat) ^ (32 - number_of_leading_zeros (wrap32 (num - 1))) :=
      Nat.one_le_two_pow
    omega

/-- `ceiling_power_of_two` on `2 ≤ num` with `num - 1` in the binade
`[2^k, 2^(k+1))`, below the cap. -/
theorem cp2_mid (num : Int) (k : Nat) (h2 : 2 ≤ num) (hk : 2 ^ k ≤ (num - 1).toNat)
    (hk1 : (num - 1).toNat < 2 ^ (k + 1)) (hcap : k ≤ 29) :
    ceiling_power_of_two num = 2 ^ (k + 1) := by
  have hknat : 2 ^ k ≤ (num - 1).toNat ∧ (num - 1).toNat < 2 ^ (k + 1) := ⟨hk, hk1⟩
  have hup : (2 : Nat) ^ (k + 1) ≤ 2 ^ 30 := Nat.pow_le_pow_right (by omega) (by omega)
  have hw : wrap32 (num - 1) = num - 1 := by
    apply wrap32_eq <;> omega
  have hcast : ((num - 1).toNat : Int) = num - 1 := Int.toNat_of_nonneg (by omega)
  have hnlz : number_of_leading_zeros (num - 1) = 31 - k := by
    rw [← hcast]
    exact nlz_pos_eq _ k hknat.1 hknat.2 (by omega)
  simp only [ceiling_power_of_two]
  rw [hw, hnlz, if_neg (by omega), shifted_ones (31 - k) (by omega)]
  have h32 : 32 - (31 - k) = k + 1 := by omega
  rw [h32]
  have hle : (2 : Nat) ^ (k + 1) ≤ 2 ^ 30 := Nat.pow_le_pow_right (by omega) (by omega)
  have hpos : 1 ≤ (2 : Nat) ^ (k + 1) := Nat.one_le_two_pow
  rw [if_neg (by norm_num [Nat.shiftLeft_eq]; omega)]
  omega

/-- `ceiling_power_of_two` caps at `2^30` for `num > 2^30`. -/
theorem cp2_big (num : Int) (h : 2 ^ 30 < num) (hhi : num < 2 ^ 31) :
    ceiling_power_of_two num = 2 ^ 30 := by
  have hknat : 2 ^ 30 ≤ (num - 1).toNat ∧ (num - 1).toNat < 2 ^ 31 := by
    constructor <;> omega
  have hw : wrap32 (num - 1) = num - 1 := by
    apply wrap32_eq <;> omega
  have hcast : ((num - 1).toNat : Int) = num - 1 := Int.toNat_of_nonneg (by omega)
  have hnlz : number_of_leading_zeros (num - 1) = 1 := by
    rw [← hcast]
    exact nlz_pos_eq _ 30 hknat.1 hknat.2 (by omega)
  simp only [ceiling_power_of_two]
  rw [hw, hnlz, if_neg (by omega), shifted_ones 1 (by omega),
    if_pos (by norm_num [Nat.shiftLeft_eq])]
  norm_num [Nat.shiftLeft_eq]

/-- `ceiling_power_of_two num = 1` for `-2^31 < num ≤ 1`. -/
theorem cp2_small (num : Int) (hlo : -2 ^ 31 < num) (hhi : num ≤ 1) :
    ceiling_power_of_two num = 1 := by
  have hw : wrap32 (num - 1) = num - 1 := by
    apply wrap32_eq <;> omega
  simp only [ceiling_power_of_two]
  rw [hw]
  rcases Int.lt_or_le num 1 with hn | hn
  · rw [nlz_neg (num - 1) (by omega), if_pos (Or.inr rfl)]
  · have h1 : num = 1 := by omega
    rw [h1]
    rfl

/-! ## Well-formedness of reachable states -/

theorem new_table_len (m : Nat) :
    (new m).table_len = max (ceiling_power_of_two ((min m (2 ^ 30 - 1) : Nat) : Int)) 8 := rfl

theorem new_table_len_pow (m : Nat) :
    ∃ k, 3 ≤ k ∧ k ≤ 30 ∧ (new m).table_len = 2 ^ k := by
  obtain ⟨k, hk30, hpow⟩ := cp2_pow ((min m (2 ^ 30 - 1) : Nat) : Int)
  rw [new_table_len, hpow]
  rcases Nat.lt_or_ge k 3 with h | h
  · refine ⟨3, by omega, by omega, ?_⟩
    have hle : (2 : Nat) ^ k ≤ 8 := by
      calc (2 : Nat) ^ k ≤ 2 ^ 3 := Nat.pow_le_pow_right (by omega) (by omega)
        _ = 8 := by norm_num
    rw [Nat.max_eq_right hle]
    norm_num
  · refine ⟨k, h, hk30, ?_⟩
    have hle : (8 : Nat) ≤ 2 ^ k := by
      calc (8 : Nat) = 2 ^ 3 := by norm_num
        _ ≤ 2 ^ k := Nat.pow_le_pow_right (by omega) h
    rw [Nat.max_eq_left hle]

theorem WF_new (m : Nat) : WF (new m) := by
  obtain ⟨k, hk3, hk30, htl⟩ := new_table_len_pow m
  refine ⟨?_, ?_, ?_⟩
  · show (List.replicate (new m).table_len (0 : Nat)).length = (new m).table_len
    exact List.length_replicate _ _
  · show (new m).table_len = 8 * (((new m).table_len >>> 3) - 1 + 1)
    rw [htl, Nat.shiftRight_eq_div_pow, Nat.pow_div hk3 (by omega)]
    have hpos : 1 ≤ (2 : Nat) ^ (k - 3) := Nat.one_le_two_pow
    have hsplit : (2 : Nat) ^ k = 8 * 2 ^ (k - 3) := by
      have h8 : (2 : Nat) ^ k = 2 ^ 3 * 2 ^ (k - 3) := by
        rw [← Nat.pow_add]
        congr 1
        omega
      simpa using h8
    omega
  · intro i hi
    show (List.replicate (new m).table_len (0 : Nat)).getD i 0 < 2 ^ 64
    rw [getD_replicate_zero]
    norm_num

/-- The table effect of one `increment` call: all words stay `u64`-sized and
no counter anywhere decreases. -/
theorem increment_table_nib (s : FrequencyCountSketch) (hc : Nat)
    (hent : ∀ p, p < s.table.length → s.table.getD p 0 < 2 ^ 64) :
    (∀ p, p < (increment_table s hc).1.table.length →
        (increment_table s hc).1.table.getD p 0 < 2 ^ 64) ∧
    (∀ p j', j' < 16 →
        nib (s.table.getD p 0) j' ≤ nib ((increment_table s hc).1.table.getD p 0) j') := by
  simp only [increment_table]
  obtain ⟨e1, m1, _⟩ := increment_at_nib s
    (word_pos s (spread hc) (rehash (spread hc)) 0)
    (counter_index (rehash (spread hc)) 0) (counter_index_lt _ _) hent
  obtain ⟨e2, m2, _⟩ := increment_at_nib _
    (word_pos s (spread hc) (rehash (spread hc)) 1)
    (counter_index (rehash (spread hc)) 1) (counter_index_lt _ _) e1
  obtain ⟨e3, m3, _⟩ := increment_at_nib _
    (word_pos s (spread hc) (rehash (spread hc)) 2)
    (counter_index (rehash (spread hc)) 2) (counter_index_lt _ _) e2
  obtain ⟨e4, m4, _⟩ := increment_at_nib _
    (word_pos s (spread hc) (rehash (spread hc)) 3)
    (counter_index (rehash (spread hc)) 3) (counter_index_lt _ _) e3
  refine ⟨e4, ?_⟩
  intro p j' hj'
  exact Nat.le_trans (m1 p j' hj') (Nat.le_trans (m2 p j' hj')
    (Nat.le_trans (m3 p j' hj') (m4 p j' hj')))

theorem WF_increment_table (s : FrequencyCountSketch) (hc : Nat) (h : WF s) :
    WF (increment_table s hc).1 := by
  obtain ⟨hlen, hmask, hent⟩ := h
  obtain ⟨_, hbm, htl, _, _, hlen'⟩ := increment_table_preserve s hc
  obtain ⟨hent', _⟩ := increment_table_nib s hc hent
  exact ⟨by rw [hlen', htl, hlen], by rw [htl, hbm, hmask], hent'⟩

theorem WF_reset (s : FrequencyCountSketch) (h : WF s) : WF (reset s) := by
  obtain ⟨hlen, hmask, hent⟩ := h
  refine ⟨?_, ?_, ?_⟩
  · show (s.table.map _).length = s.table_len
    rw [List.length_map]
    exact hlen
  · exact hmask
  · intro p hp
    have hp' : p < s.table.length := by
      have : (reset s).table.length = s.table.length := (reset_preserve s).2.2.2.2.1
      omega
    show (s.table.map _).getD p 0 < 2 ^ 64
    rw [getD_map_lt _ _ _ hp']
    exact Nat.lt_of_le_of_lt Nat.and_le_right (by norm_num)

theorem WF_increment (s : FrequencyCountSketch) (hc : Nat) (h : WF s) :
    WF (increment s hc) := by
  have hT : WF (increment_table s hc).1 := WF_increment_table s hc h
  simp only [increment]
  split
  · split
    · exact WF_reset _ hT
    · exact hT
  · exact hT

/-- Every reachable state is well-formed. -/
theorem reachable_WF {s : FrequencyCountSketch} (h : Reachable s) : WF s := by
  induction h with
  | new m => exact WF_new m
  | increment hc _ ih => exact WF_increment _ hc ih
  | reset _ ih => exact WF_reset _ ih

/-! ## Word positions: in-bounds and pairwise distinct -/

theorem word_pos_bounds (s : FrequencyCountSketch) (bh ch i : Nat) (hi : i < 4)
    (h : s.table_len = 8 * (s.block_mask + 1)) :
    block_of s bh ≤ word_pos s bh ch i ∧
    word_pos s bh ch i < block_of s bh + 8 ∧
    word_pos s bh ch i < s.table_len := by
  have hoff := counter_offset_le ch i
  have hmask : bh &&& s.block_mask ≤ s.block_mask := Nat.and_le_right
  unfold word_pos block_of
  rw [Nat.shiftLeft_eq, Nat.shiftLeft_eq]
  omega

theorem word_pos_ne (s : FrequencyCountSketch) (bh ch : Nat) (i i' : Nat)
    (hne : i ≠ i') :
    word_pos s bh ch i ≠ word_pos s bh ch i' := by
  have h1 := counter_offset_le ch i
  have h2 := counter_offset_le ch i'
  unfold word_pos
  rw [Nat.shiftLeft_eq, Nat.shiftLeft_eq]
  omega

theorem word_pos_congr (s t : FrequencyCountSketch) (h : s.block_mask = t.block_mask)
    (bh ch i : Nat) : word_pos s bh ch i = word_pos t bh ch i := by
  unfold word_pos block_of
  rw [h]

/-! ## `frequency` as nibble reads -/

theorem read_count_eq_nib (s : FrequencyCountSketch) (hc i : Nat) :
    read_count s hc i =
      nib (s.table.getD (word_pos s (spread hc) (rehash (spread hc)) i) 0)
        (counter_index (rehash (spread hc)) i) := by
  simp only [read_count]
  rw [nib_eq_shift]

theorem read_count_le (s : FrequencyCountSketch) (hc i : Nat) : read_count s hc i ≤ 15 := by
  simp only [read_count]
  exact Nat.and_le_right

theorem frequency_le_15 (s : FrequencyCountSketch) (hc : Nat) : frequency s hc ≤ 15 :=
  Nat.le_trans (Nat.le_trans (min_le_left _ _) (min_le_left _ _)) (read_count_le s hc 0)

theorem min_div_two (a b : Nat) : min (a / 2) (b / 2) = min a b / 2 := by
  rcases Nat.le_total a b with h | h
  · rw [Nat.min_eq_left h, Nat.min_eq_left (Nat.div_le_div_right h)]
  · rw [Nat.min_eq_right h, Nat.min_eq_right (Nat.div_le_div_right h)]

/-- `reset` halves the frequency estimate of every item exactly (floor). -/
theorem frequency_reset (s : FrequencyCountSketch) (h : WF s) (hc : Nat) :
    frequency (reset s) hc = frequency s hc / 2 := by
  obtain ⟨hlen, hmask, hent⟩ := h
  have hbm : (reset s).block_mask = s.block_mask := (reset_preserve s).2.1
  have hread : ∀ i, i < 4 → read_count (reset s) hc i = read_count s hc i / 2 := by
    intro i hi
    rw [read_count_eq_nib, read_count_eq_nib,
      word_pos_congr (reset s) s hbm (spread hc) (rehash (spread hc)) i]
    have hpos : word_pos s (spread hc) (rehash (spread hc)) i < s.table.length := by
      have := word_pos_bounds s (spread hc) (rehash (spread hc)) i hi hmask
      omega
    show nib ((s.table.map _).getD _ 0) _ = _
    rw [getD_map_lt _ _ _ hpos]
    exact nib_half _ _ (counter_index_lt _ _)
  simp only [frequency]
  rw [hread 0 (by omega), hread 1 (by omega), hread 2 (by omega), hread 3 (by omega),
    min_div_two, min_div_two, min_div_two]

/-! ## `increment` never decreases any estimate (outside aging) -/

/-- The exact condition under which a call `increment(e)` runs the aging
pass: some counter changed and the bumped `size` hits `sample_size`. -/
def triggers_aging (s : FrequencyCountSketch) (hc : Nat) : Prop :=
  (increment_table s hc).2 = true ∧
    (increment_table s hc).1.size + 1 = (increment_table s hc).1.sample_size

instance triggers_aging_decidable (s : FrequencyCountSketch) (hc : Nat) :
    Decidable (triggers_aging s hc) := by
  unfold triggers_aging
  infer_instance

theorem increment_no_aging (s : FrequencyCountSketch) (hc : Nat)
    (hna : ¬triggers_aging s hc) :
    increment s hc = (increment_table s hc).1 ∨
    increment s hc =
      { (increment_table s hc).1 with size := (increment_table s hc).1.size + 1 } := by
  simp only [increment]
  split
  · split
    · rename_i hadd hthr
      exact absurd ⟨hadd, hthr⟩ hna
    · exact Or.inr rfl
  · exact Or.inl rfl

theorem frequency_set_size (t : FrequencyCountSketch) (n x : Nat) :
    frequency { t with size := n } x = frequency t x := rfl

theorem frequency_mono_table (s t : FrequencyCountSketch) (hbm : t.block_mask = s.block_mask)
    (hmono : ∀ p j', j' < 16 → nib (s.table.getD p 0) j' ≤ nib (t.table.getD p 0) j')
    (x : Nat) : frequency s x ≤ frequency t x := by
  have hr : ∀ i, read_count s x i ≤ read_count t x i := by
    intro i
    rw [read_count_eq_nib, read_count_eq_nib,
      word_pos_congr t s hbm (spread x) (rehash (spread x)) i]
    exact hmono _ _ (counter_index_lt _ _)
  exact min_le_min (min_le_min (hr 0) (hr 1)) (min_le_min (hr 2) (hr 3))

/-! ## Exact counting on a fresh sketch (C1 machinery) -/

theorem nib_mul_pow_self (v j : Nat) (hv : v < 16) : nib (v * 16 ^ j) j = v := by
  unfold nib
  rw [Nat.mul_div_cancel _ (Nat.pos_pow_of_pos _ (by omega))]
  exact Nat.mod_eq_of_lt hv

theorem mul_pow16_lt (v j : Nat) (hv : v < 16) (hj : j < 16) : v * 16 ^ j < 2 ^ 64 := by
  have h1 : v * 16 ^ j < 16 * 16 ^ j :=
    Nat.mul_lt_mul_of_lt_of_le hv (Nat.le_refl _) (Nat.pos_pow_of_pos _ (by omega))
  have h2 : 16 * 16 ^ j = 16 ^ (j + 1) := (Nat.pow_succ' ..).symm
  have h3 : (16 : Nat) ^ (j + 1) ≤ 16 ^ 16 := Nat.pow_le_pow_right (by omega) (by omega)
  have h4 : (16 : Nat) ^ 16 = 2 ^ 64 := by norm_num
  omega

/-- One saturating increment on a word holding the single counter value
`k < 15` at nibble `j` succeeds and writes `k * 16^j + 16^j`. -/
theorem increment_at_fresh_step (t : FrequencyCountSketch) (p j k : Nat) (hk : k < 15)
    (hj : j < 16) (hval : t.table.getD p 0 = k * 16 ^ j) :
    increment_at t p j = ({ t with table := t.table.set p (k * 16 ^ j + 16 ^ j) }, true) := by
  rw [increment_at_eq t p j hj (by rw [hval]; exact mul_pow16_lt _ _ (by omega) hj),
    if_neg (by rw [hval, nib_mul_pow_self _ _ (by omega)]; omega), hval]

/-- On a table whose four target words each hold the single counter value
`k < 15` at the target nibble, one `increment` call reports a change and
bumps all four counters to `k + 1`. -/
theorem increment_table_fresh (s : FrequencyCountSketch) (hc k : Nat) (hk : k < 15)
    (hP : ∀ i, i < 4 → word_pos s (spread hc) (rehash (spread hc)) i < s.table.length)
    (hw : ∀ i, i < 4 → s.table.getD (word_pos s (spread hc) (rehash (spread hc)) i) 0 =
        k * 16 ^ counter_index (rehash (spread hc)) i) :
    (increment_table s hc).2 = true ∧
    (∀ i, i < 4 → (increment_table s hc).1.table.getD
        (word_pos s (spread hc) (rehash (spread hc)) i) 0 =
        (k + 1) * 16 ^ counter_index (rehash (spread hc)) i) := by
  have hd : ∀ i i', i ≠ i' → word_pos s (spread hc) (rehash (spread hc)) i ≠
      word_pos s (spread hc) (rehash (spread hc)) i' :=
    fun i i' hne => word_pos_ne s _ _ i i' hne
  have g1 : (s.table.set (word_pos s (spread hc) (rehash (spread hc)) 0)
        (k * 16 ^ counter_index (rehash (spread hc)) 0 +
          16 ^ counter_index (rehash (spread hc)) 0)).getD
      (word_pos s (spread hc) (rehash (spread hc)) 1) 0 =
      k * 16 ^ counter_index (rehash (spread hc)) 1 := by
    rw [getD_set_ne _ _ _ _ (hd 0 1 (by omega)), hw 1 (by omega)]
  have g2 : ((s.table.set (word_pos s (spread hc) (rehash (spread hc)) 0)
        (k * 16 ^ counter_index (rehash (spread hc)) 0 +
          16 ^ counter_index (rehash (spread hc)) 0)).set
        (word_pos s (spread hc) (rehash (spread hc)) 1)
        (k * 16 ^ counter_index (rehash (spread hc)) 1 +
          16 ^ counter_index (rehash (spread hc)) 1)).getD
      (word_pos s (spread hc) (rehash (spread hc)) 2) 0 =
      k * 16 ^ counter_index (rehash (spread hc)) 2 := by
    rw [getD_set_ne _ _ _ _ (hd 1 2 (by omega)), getD_set_ne _ _ _ _ (hd 0 2 (by omega)),
      hw 2 (by omega)]
  have g3 : (((s.table.set (word_pos s (spread hc) (rehash (spread hc)) 0)
        (k * 16 ^ counter_index (rehash (spread hc)) 0 +
          16 ^ counter_index (rehash (spread hc)) 0)).set
        (word_pos s (spread hc) (rehash (spread hc)) 1)
        (k * 16 ^ counter_index (rehash (spread hc)) 1 +
          16 ^ counter_index (rehash (spread hc)) 1)).set
        (word_pos s (spread hc) (rehash (spread hc)) 2)
        (k * 16 ^ counter_index (rehash (spread hc)) 2 +
          16 ^ counter_index (rehash (spread hc)) 2)).getD
      (word_pos s (spread hc) (rehash (spread hc)) 3) 0 =
      k * 16 ^ counter_index (rehash (spread hc)) 3 := by
    rw [getD_set_ne _ _ _ _ (hd 2 3 (by omega)), getD_set_ne _ _ _ _ (hd 1 3 (by omega)),
      getD_set_ne _ _ _ _ (hd 0 3 (by omega)), hw 3 (by omega)]
  simp only [increment_table]
  rw [increment_at_fresh_step s _ _ k hk (counter_index_lt _ _) (hw 0 (by omega))]
  dsimp only
  rw [increment_at_fresh_step
      { s with table := (s.table.set (word_pos s (spread hc) (rehash (spread hc)) 0)
          (k * 16 ^ counter_index (rehash (spread hc)) 0 +
            16 ^ counter_index (rehash (spread hc)) 0)) }
      _ _ k hk (counter_index_lt _ _) g1]
  dsimp only
  rw [increment_at_fresh_step
      { s with table := ((s.table.set (word_pos s (spread hc) (rehash (spread hc)) 0)
          (k * 16 ^ counter_index (rehash (spread hc)) 0 +
            16 ^ counter_index (rehash (spread hc)) 0)).set
          (word_pos s (spread hc) (rehash (spread hc)) 1)
          (k * 16 ^ counter_index (rehash (spread hc)) 1 +
            16 ^ counter_index (rehash (spread hc)) 1)) }
      _ _ k hk (counter_index_lt _ _) g2]
  dsimp only
  rw [increment_at_fresh_step
      { s with table := (((s.table.set (word_pos s (spread hc) (rehash (spread hc)) 0)
          (k * 16 ^ counter_index (rehash (spread hc)) 0 +
            16 ^ counter_index (rehash (spread hc)) 0)).set
          (word_pos s (spread hc) (rehash (spread hc)) 1)
          (k * 16 ^ counter_index (rehash (spread hc)) 1 +
            16 ^ counter_index (rehash (spread hc)) 1)).set
          (word_pos s (spread hc) (rehash (spread hc)) 2)
          (k * 16 ^ counter_index (rehash (spread hc)) 2 +
            16 ^ counter_index (rehash (spread hc)) 2)) }
      _ _ k hk (counter_index_lt _ _) g3]
  dsimp only
  refine ⟨rfl, ?_⟩
  intro i hi
  have hlen0 : word_pos s (spread hc) (rehash (spread hc)) 0 < s.table.length := hP 0 (by omega)
  interval_cases i
  · rw [getD_set_ne _ _ _ _ (hd 3 0 (by omega)), getD_set_ne _ _ _ _ (hd 2 0 (by omega)),
      getD_set_ne _ _ _ _ (hd 1 0 (by omega)), getD_set_self _ _ _ (hP 0 (by omega)),
      Nat.succ_mul]
  · rw [getD_set_ne _ _ _ _ (hd 3 1 (by omega)), getD_set_ne _ _ _ _ (hd 2 1 (by omega)),
      getD_set_self _ _ _ (by simpa using hP 1 (by omega)), Nat.succ_mul]
  · rw [getD_set_ne _ _ _ _ (hd 3 2 (by omega)),
      getD_set_self _ _ _ (by simpa using hP 2 (by omega)), Nat.succ_mul]
  · rw [getD_set_self _ _ _ (by simpa using hP 3 (by omega)), Nat.succ_mul]

/-- Invariant maintained while one item is incremented `n` times on a fresh
sketch (all below saturation and below the aging threshold): each of the
item's four words holds exactly the counter value `n` at the item's nibble. -/
theorem c1_invariant (m hc : Nat) :
    ∀ n, n < 15 → n < (new m).sample_size →
      ((fun s => increment s hc)^[n] (new m)).sample_size = (new m).sample_size ∧
      ((fun s => increment s hc)^[n] (new m)).block_mask = (new m).block_mask ∧
      ((fun s => increment s hc)^[n] (new m)).size = n ∧
      ((fun s => increment s hc)^[n] (new m)).table.length = (new m).table.length ∧
      (∀ i, i < 4 →
        ((fun s => increment s hc)^[n] (new m)).table.getD
          (word_pos (new m) (spread hc) (rehash (spread hc)) i) 0 =
          n * 16 ^ counter_index (rehash (spread hc)) i) := by
  intro n
  induction n with
  | zero =>
    intro _ _
    refine ⟨rfl, rfl, rfl, rfl, ?_⟩
    intro i hi
    show (List.replicate (new m).table_len (0 : Nat)).getD _ 0 = _
    rw [getD_replicate_zero, Nat.zero_mul]
  | succ k ih =>
    intro h15 hs
    obtain ⟨ihs, ihb, ihz, ihl, ihw⟩ := ih (by omega) (by omega)
    rw [Function.iterate_succ_apply']
    set sk := (fun s => increment s hc)^[k] (new m)
    have hwp : ∀ bh ch i, word_pos sk bh ch i = word_pos (new m) bh ch i :=
      fun bh ch i => word_pos_congr sk (new m) ihb bh ch i
    have hmask : (new m).table_len = 8 * ((new m).block_mask + 1) := (WF_new m).2.1
    have hlen : (new m).table.length = (new m).table_len := (WF_new m).1
    have hP : ∀ i, i < 4 → word_pos sk (spread hc) (rehash (spread hc)) i < sk.table.length := by
      intro i hi
      rw [hwp, ihl]
      have := word_pos_bounds (new m) (spread hc) (rehash (spread hc)) i hi hmask
      omega
    have hw : ∀ i, i < 4 → sk.table.getD (word_pos sk (spread hc) (rehash (spread hc)) i) 0 =
        k * 16 ^ counter_index (rehash (spread hc)) i := by
      intro i hi
      rw [hwp]
      exact ihw i hi
    obtain ⟨hadd, hvals⟩ := increment_table_fresh sk hc k (by omega) hP hw
    obtain ⟨p1, p2, p3, p4, p5, p6⟩ := increment_table_preserve sk hc
    have hnr : increment sk hc =
        { (increment_table sk hc).1 with size := (increment_table sk hc).1.size + 1 } := by
      simp only [increment]
      rw [hadd, if_pos rfl, if_neg]
      show ¬((increment_table sk hc).1.size + 1 = (increment_table sk hc).1.sample_size)
      rw [p4, ihz, p1, ihs]
      omega
    rw [hnr]
    refine ⟨?_, ?_, ?_, ?_, ?_⟩
    · show (increment_table sk hc).1.sample_size = _
      rw [p1, ihs]
    · show (increment_table sk hc).1.block_mask = _
      rw [p2, ihb]
    · show (increment_table sk hc).1.size + 1 = _
      rw [p4, ihz]
    · show (increment_table sk hc).1.table.length = _
      rw [p6, ihl]
    · intro i hi
      show (increment_table sk hc).1.table.getD _ 0 = _
      rw [← hwp (spread hc) (rehash (spread hc)) i]
      exact hvals i hi

/-! ## Claim theorems -/

/-- C1: for every item (hash code) `hc` and every `n < 15` below the aging
threshold (`n < sample_size`), a fresh sketch `new m` after exactly `n`
calls of `increment hc` reports `frequency hc = n`. -/
theorem C1_fresh_increments_exact (m hc n : Nat) (h15 : n < 15)
    (hs : n < (new m).sample_size) :
    frequency ((fun s => increment s hc)^[n] (new m)) hc = n := by
  obtain ⟨hsam, hbm, hsz, hlen, hw⟩ := c1_invariant m hc n h15 hs
  have hr : ∀ i, i < 4 → read_count ((fun s => increment s hc)^[n] (new m)) hc i = n := by
    intro i hi
    rw [read_count_eq_nib, word_pos_congr _ (new m) hbm, hw i hi,
      nib_mul_pow_self _ _ (by omega)]
  simp only [frequency]
  rw [hr 0 (by omega), hr 1 (by omega), hr 2 (by omega), hr 3 (by omega)]
  simp

theorem C1_witness :
    3 < 15 ∧ 3 < (new 20).sample_size ∧
    frequency ((fun s => increment s 1)^[3] (new 20)) 1 = 3 :=
  ⟨by decide, by decide, C1_fresh_increments_exact 20 1 3 (by decide) (by decide)⟩

/-- C3: on every reachable sketch state, `reset` drops every item's
estimate to at most the ceiling of half its previous value (in fact the
embedding shows the new value is exactly `⌊f/2⌋`). -/
theorem C3_reset_ceil_half (s : FrequencyCountSketch) (h : Reachable s) (hc : Nat) :
    frequency (reset s) hc ≤ (frequency s hc + 1) / 2 := by
  rw [frequency_reset s (reachable_WF h) hc]
  omega

theorem C3_witness :
    frequency (reset (increment (new 0) 3)) 3 ≤ (frequency (increment (new 0) 3) 3 + 1) / 2 :=
  C3_reset_ceil_half _ (Reachable.increment 3 (Reachable.new 0)) 3

/-- C4: as long as the call does not run the aging pass, `increment` (of any
item `y`) never decreases `frequency x`; stated over structurally
well-formed states, which include every state the public API can build. -/
theorem C4_increment_monotone (s : FrequencyCountSketch) (hWF : WF s) (x y : Nat)
    (hna : ¬triggers_aging s y) :
    frequency s x ≤ frequency (increment s y) x := by
  obtain ⟨hlen, hmask, hent⟩ := hWF
  obtain ⟨hent', hmono⟩ := increment_table_nib s y hent
  have hbm : (increment_table s y).1.block_mask = s.block_mask :=
    (increment_table_preserve s y).2.1
  have hfreq : frequency s x ≤ frequency (increment_table s y).1 x :=
    frequency_mono_table s _ hbm hmono x
  rcases increment_no_aging s y hna with h | h
  · rw [h]
    exact hfreq
  · rw [h, frequency_set_size]
    exact hfreq

theorem C4_witness :
    WF (new 0) ∧ ¬triggers_aging (new 0) 5 ∧
    frequency (new 0) 7 ≤ frequency (increment (new 0) 5) 7 :=
  ⟨by decide, by decide, C4_increment_monotone (new 0) (by decide) 7 5 (by decide)⟩

/-- C5: `frequency` returns a value in `[0, 15]` on every sketch state and
every item (the lower bound and the absence of any state mutation are built
into the embedding: the function has codomain `Nat` and takes the state
read-only, mirroring `&self`). -/
theorem C5_frequency_bounded (s : FrequencyCountSketch) (hc : Nat) :
    frequency s hc ≤ 15 :=
  frequency_le_15 s hc

/-- C6: for every constructed sketch and item, the four word positions are
pairwise distinct, lie in the single 8-word-aligned block starting at
`block`, and are below `table_len` (which equals the table's length), so
every access of `increment` and `frequency` is in bounds. -/
theorem C6_positions_in_block (m hc : Nat) :
    (∀ i i', i < 4 → i' < 4 → i ≠ i' →
      word_pos (new m) (spread hc) (rehash (spread hc)) i ≠
        word_pos (new m) (spread hc) (rehash (spread hc)) i') ∧
    (∀ i, i < 4 →
      block_of (new m) (spread hc) ≤ word_pos (new m) (spread hc) (rehash (spread hc)) i ∧
      word_pos (new m) (spread hc) (rehash (spread hc)) i < block_of (new m) (spread hc) + 8 ∧
      word_pos (new m) (spread hc) (rehash (spread hc)) i < (new m).table_len) ∧
    (∃ b, block_of (new m) (spread hc) = 8 * b) ∧
    (new m).table.length = (new m).table_len := by
  refine ⟨?_, ?_, ?_, (WF_new m).1⟩
  · intro i i' _ _ hne
    exact word_pos_ne _ _ _ i i' hne
  · intro i hi
    exact word_pos_bounds _ _ _ i hi (WF_new m).2.1
  · refine ⟨spread hc &&& (new m).block_mask, ?_⟩
    unfold block_of
    rw [Nat.shiftLeft_eq]
    omega

theorem C6_witness :
    word_pos (new 0) (spread 0) (rehash (spread 0)) 0 ≠
      word_pos (new 0) (spread 0) (rehash (spread 0)) 1 ∧
    word_pos (new 0) (spread 0) (rehash (spread 0)) 0 < (new 0).table_len :=
  ⟨(C6_positions_in_block 0 0).1 0 1 (by decide) (by decide) (by decide),
   ((C6_positions_in_block 0 0).2.1 0 (by decide)).2.2⟩

/-- C8: `new` always succeeds; `table_len` is a power of two and at least 8;
`new 0` gives `table_len = 8` and `get_max_size = 0`; `sample_size` is
`10 * maximum` for a positive clamped maximum, else 10. -/
theorem C8_new_sizing (m : Nat) :
    (∃ k, (new m).table_len = 2 ^ k) ∧
    8 ≤ (new m).table_len ∧
    (new 0).table_len = 8 ∧
    get_max_size (new 0) = 0 ∧
    (0 < min m (2 ^ 30 - 1) → (new m).sample_size = 10 * min m (2 ^ 30 - 1)) ∧
    (min m (2 ^ 30 - 1) = 0 → (new m).sample_size = 10) := by
  obtain ⟨k, h3, h30, htl⟩ := new_table_len_pow m
  refine ⟨⟨k, htl⟩, ?_, by decide, by decide, ?_, ?_⟩
  · rw [htl]
    calc (8 : Nat) = 2 ^ 3 := by norm_num
      _ ≤ 2 ^ k := Nat.pow_le_pow_right (by omega) h3
  · intro h
    show (if min m (2 ^ 30 - 1) > 0 then 10 * min m (2 ^ 30 - 1) else 10) = _
    rw [if_pos h]
  · intro h
    show (if min m (2 ^ 30 - 1) > 0 then 10 * min m (2 ^ 30 - 1) else 10) = _
    rw [if_neg (by omega)]

theorem C8_witness :
    (new 20).sample_size = 10 * min 20 (2 ^ 30 - 1) ∧ (new 0).sample_size = 10 :=
  ⟨(C8_new_sizing 20).2.2.2.2.1 (by decide), (C8_new_sizing 0).2.2.2.2.2 (by decide)⟩

/-- C10: in every reachable state, `size` is strictly below `sample_size`:
`increment` checks the threshold after every successful increment and ages
before returning. -/
theorem C10_size_lt_sample (s : FrequencyCountSketch) (h : Reachable s) :
    s.size < s.sample_size :=
  reachable_size_lt_sample h

theorem C10_witness : (new 0).size < (new 0).sample_size :=
  C10_size_lt_sample _ (Reachable.new 0)

/-- C9 counterexample: at `num = i32::MIN` the claim fails.  The `i32`
subtraction `num - 1` wraps (overflowing in a debug build), so the function
returns `2^30` instead of the claimed 1 even though `num ≤ 1`. -/
theorem C9_counterexample : (-2 ^ 31 : Int) ≤ 1 ∧ ceiling_power_of_two (-2 ^ 31) ≠ 1 := by
  constructor
  · decide
  · decide

/-- C9 (amended): `ceiling_power_of_two` returns 1 for every `n ≤ 1`
except `n = -2^31` (where the 32-bit wrap of `num - 1` makes it return
`2^30`); for `1 < n ≤ 2^30` it returns the smallest power of two `≥ n`
(so `n` itself when `n` is a power of two); above `2^30` it caps at
`2^30`. -/
theorem C9_amended_cp2_spec (n : Int) (hlo : -2 ^ 31 ≤ n) (hhi : n < 2 ^ 31) :
    (-2 ^ 31 < n → n ≤ 1 → ceiling_power_of_two n = 1) ∧
    (1 < n → n ≤ 2 ^ 30 →
      (∃ k, ceiling_power_of_two n = 2 ^ k) ∧
      n ≤ (ceiling_power_of_two n : Int) ∧
      ((ceiling_power_of_two n : Int) < 2 * n) ∧
      (∀ k : Nat, n = ((2 ^ k : Nat) : Int) → (ceiling_power_of_two n : Int) = n)) ∧
    (2 ^ 30 < n → ceiling_power_of_two n = 2 ^ 30) ∧
    (n = -2 ^ 31 → ceiling_power_of_two n = 2 ^ 30) := by
  refine ⟨fun h1 h2 => cp2_small n h1 h2, ?_, fun h => cp2_big n h hhi, ?_⟩
  · intro h1 h30
    have hb1 : 1 ≤ (n - 1).toNat := by omega
    have hblt : (n - 1).toNat < 2 ^ 30 := by omega
    have hk1 : 2 ^ (n - 1).toNat.log2 ≤ (n - 1).toNat := Nat.log2_self_le (by omega)
    have hk2 : (n - 1).toNat < 2 ^ ((n - 1).toNat.log2 + 1) := Nat.lt_log2_self
    have hk29 : (n - 1).toNat.log2 ≤ 29 := by
      have := (Nat.log2_lt (by omega : (n - 1).toNat ≠ 0)).mpr hblt
      omega
    have hmid := cp2_mid n (n - 1).toNat.log2 (by omega) hk1 hk2 hk29
    have h2l : (2 : Nat) ^ ((n - 1).toNat.log2 + 1) = 2 * 2 ^ (n - 1).toNat.log2 :=
      Nat.pow_succ' ..
    refine ⟨⟨(n - 1).toNat.log2 + 1, hmid⟩, ?_, ?_, ?_⟩
    · rw [hmid]
      omega
    · rw [hmid]
      omega
    · intro k hnk
      have hbk : (n - 1).toNat = 2 ^ k - 1 := by omega
      have hlt1 : (2 : Nat) ^ (n - 1).toNat.log2 < 2 ^ k := by
        have hp : 1 ≤ (2 : Nat) ^ k := Nat.one_le_two_pow
        omega
      have hle2 : (2 : Nat) ^ k ≤ 2 ^ ((n - 1).toNat.log2 + 1) := by omega
      have hkl1 : k = (n - 1).toNat.log2 + 1 := by
        have ha := (Nat.pow_lt_pow_iff_right (by omega : 1 < 2)).mp hlt1
        have hb := (Nat.pow_le_pow_iff_right (by omega : 1 < 2)).mp hle2
        omega
      rw [hmid, ← hkl1]
      omega
  · intro h
    rw [h]
    decide

theorem C9_amended_witness :
    (∃ k, ceiling_power_of_two 5 = 2 ^ k) ∧
    (5 : Int) ≤ (ceiling_power_of_two 5 : Int) ∧
    ((ceiling_power_of_two 5 : Int) < 2 * 5) := by
  obtain ⟨h1, h2, h3, _⟩ :=
    (C9_amended_cp2_spec 5 (by norm_num) (by norm_num)).2.1 (by norm_num) (by norm_num)
  exact ⟨h1, h2, h3⟩

/-- C2 (code bug): `bit_count` keeps only the low 3 bits of the population
count (`i & 0x7`; Hacker's Delight figure 5-2 uses `0x7f`), contradicting
its own doc comment ("Returns the number of one-bits...").  On a word
with sixteen odd counters the per-word contribution is `16 & 7 = 0`, so
`reset` computes `size = (8 - 0) >> 1 = 4` where the claimed exact odd
count (16, so `size = (8 - 4) >> 1 = 2`) differs. -/
theorem C2_bitcount_truncated :
    bit_count 0x1111111111111111 = 0 ∧
    (reset { sample_size := 10, block_mask := 0,
             table := [0x1111111111111111, 0, 0, 0, 0, 0, 0, 0],
             table_len := 8, size := 8, max_size := 0 }).size = 4 := by
  constructor
  · decide
  · decide

/-- The table state after `new(65)` followed by one `increment` for each of
the hundred hash codes `0, 1, ..., 99` (all below the aging threshold
`sample_size = 650`, so no automatic reset runs). -/
def c7_trace_state : FrequencyCountSketch :=
  (List.range 100).foldl (fun s h => increment s h) (new 65)

/-- The `count` accumulation of `reset`'s loop without the `u8` wrap: the
exact sum of the per-word `bit_count` values. -/
def odd_nibble_sum (table : List Nat) : Nat :=
  table.foldl (fun c w => c + bit_count (w &&& 0x1111111111111111)) 0

theorem reachable_foldl (l : List Nat) (s : FrequencyCountSketch) (hs : Reachable s) :
    Reachable (l.foldl (fun s h => increment s h) s) := by
  induction l generalizing s with
  | nil => exact hs
  | cons a t ih => exact ih _ (Reachable.increment a hs)

set_option maxRecDepth 100000 in
/-- C7 (code bug): `reset`'s `u8` accumulator overflows on a reachable
state.  After `new(65)` and one increment of each hash code `0..99`
(reachable, no automatic aging), the exact per-word `bit_count` sum is
`324 ≥ 256`, so the running `count += ...` exceeds a `u8` during
`reset()` — it panics under debug assertions and silently wraps to
`324 - 256` in release builds. -/
theorem C7_reset_count_overflows :
    Reachable c7_trace_state ∧
    256 ≤ odd_nibble_sum c7_trace_state.table ∧
    reset_count c7_trace_state.table = odd_nibble_sum c7_trace_state.table - 256 := by
  refine ⟨reachable_foldl _ _ (Reachable.new 65), ?_, ?_⟩
  · decide
  · decide

end FreqSketch
